import Mathlib

/-!
Verification development for the freepitch polyphonic event scheduler.

The definitions below are a shallow embedding of the Python sources
`src/audio/exp_adsr.py`, `src/audio/core.py` and `src/audio/event_scheduler.py`:

* machine floats become exact rationals (`ℚ`);
* `math.exp` is abstracted as an arbitrary function parameter `e : ℚ → ℚ`
  (the envelope claims are about the symbolic exponential formula, never
  about concrete float values of `exp`);
* Python's `int(x)` truncation toward zero becomes `intTrunc`;
* mutation becomes explicit state passing; generators (`yield`) become
  functions returning the list of produced blocks together with the final
  state.
-/

attribute [local semireducible] Rat.mul Rat.add Rat.sub Rat.inv Rat.ofScientific

namespace FreePitch

/-- Python's `int(q)`: truncation toward zero. -/
def intTrunc (q : ℚ) : ℤ := Int.tdiv q.num (q.den : ℤ)

/-- `ADSRStage` from `src/audio/adsr_types.py`. -/
inductive ADSRStage where
  | IDLE
  | ATTACK
  | DECAY
  | SUSTAIN
  | RELEASE
deriving DecidableEq, Repr

/-- `ExpADSR` from `src/audio/exp_adsr.py`.  `H` is the type of the
registered enter-idle handlers (the scheduler registers exactly one closure
per voice; here handlers are inert data, and `generate` reports firing). -/
structure ExpADSR (H : Type) where
  sample_rate : ℤ
  attack_s : ℚ
  decay_s : ℚ
  sustain_level : ℚ
  release_s : ℚ
  num_tau : ℚ := 5
  enter_idle_handlers : List H := []
  stage : ADSRStage := .IDLE
  value : ℚ := 0
  i : ℤ := 0
  n : ℤ := 0
  start : ℚ := 0
  target : ℚ := 0
  tau : ℚ := 1
deriving Repr

namespace ExpADSR

variable {H : Type}

/-- `ExpADSR.register_enter_idle_handler`. -/
def register_enter_idle_handler (a : ExpADSR H) (h : H) : ExpADSR H :=
  { a with enter_idle_handlers := a.enter_idle_handlers ++ [h] }

/-- `ExpADSR.clone`: only the six configuration parameters are passed to the
new instance; every other field takes its dataclass default. -/
def clone (a : ExpADSR H) : ExpADSR H :=
  { sample_rate := a.sample_rate
    attack_s := a.attack_s
    decay_s := a.decay_s
    sustain_level := a.sustain_level
    release_s := a.release_s
    num_tau := a.num_tau }

/-- `ExpADSR.reset`. -/
def reset (a : ExpADSR H) : ExpADSR H :=
  { a with stage := .IDLE, value := 0, i := 0, n := 0, start := 0, target := 0, tau := 1 }

/-- `ExpADSR._secs_to_samples`: `int(s * self.sample_rate)`. -/
def secs_to_samples (a : ExpADSR H) (s : ℚ) : ℤ :=
  intTrunc (s * (a.sample_rate : ℚ))

/-- `ExpADSR._enter_segment`. -/
def enterSegment (a : ExpADSR H) (stage : ADSRStage) (target : ℚ) (seconds : ℚ) : ExpADSR H :=
  let n := a.secs_to_samples seconds
  { a with
    stage := stage
    i := 0
    n := n
    start := a.value
    target := target
    tau := if 0 < n then (n : ℚ) / a.num_tau else 1 }

/-- `ExpADSR._enter_attack`. -/
def enterAttack (a : ExpADSR H) : ExpADSR H := a.enterSegment .ATTACK 1 a.attack_s

/-- `ExpADSR._enter_decay`. -/
def enterDecay (a : ExpADSR H) : ExpADSR H := a.enterSegment .DECAY a.sustain_level a.decay_s

/-- `ExpADSR._enter_sustain`: sets the stage only, never touches `value`. -/
def enterSustain (a : ExpADSR H) : ExpADSR H := { a with stage := .SUSTAIN }

/-- `ExpADSR._enter_release`. -/
def enterRelease (a : ExpADSR H) : ExpADSR H := a.enterSegment .RELEASE 0 a.release_s

/-- `ExpADSR.note_on`. -/
def note_on (a : ExpADSR H) : ExpADSR H := a.enterAttack

/-- `ExpADSR.note_off`. -/
def note_off (a : ExpADSR H) : ExpADSR H :=
  if a.stage = .IDLE then a else a.enterRelease

/-- `ExpADSR._exp_step`; `e` abstracts `math.exp`. -/
def expStep (e : ℚ → ℚ) (a : ExpADSR H) : ExpADSR H :=
  if a.n ≤ 0 then { a with i := 1 }
  else { a with
    value := a.target + (a.start - a.target) * e (-(a.i : ℚ) / a.tau)
    i := a.i + 1 }

/-- One iteration of the `for k in range(num_samples)` loop body of
`ExpADSR.generate`; the Bool reports whether the enter-idle handlers fired. -/
def generateStep (e : ℚ → ℚ) (a : ExpADSR H) : ExpADSR H × Bool :=
  match a.stage with
  | .IDLE => ({ a with value := 0 }, false)
  | .SUSTAIN => (a, false)
  | _ =>
    let a1 := expStep e a
    if a1.n ≤ a1.i then
      match a1.stage with
      | .ATTACK => (a1.enterDecay, false)
      | .DECAY => (a1.enterSustain, false)
      | .RELEASE => ({ a1 with stage := .IDLE }, true)
      | _ => (a1, false)
    else (a1, false)

/-- `ExpADSR.generate`: the produced values, the final state and whether the
enter-idle handlers fired during the call. -/
def generate (e : ℚ → ℚ) (a : ExpADSR H) : (num : ℕ) → List ℚ × ExpADSR H × Bool
  | 0 => ([], a, false)
  | Nat.succ m =>
    let p := generateStep e a
    let r := generate e p.1 m
    (p.1.value :: r.1, r.2.1, p.2 || r.2.2)

end ExpADSR



/-- `EventKind` from `src/audio/event_scheduler.py`. -/
inductive EventKind where
  | NOTE_ON
  | NOTE_OFF
deriving DecidableEq, Repr

/-- `RetriggerMode` from `src/audio/event_scheduler.py`. -/
inductive RetriggerMode where
  | ALLOW_TAILS
  | CUT_TAILS
  | ATTACK_FROM_CURRENT_LEVEL
deriving DecidableEq, Repr

/-- The duck-typed `data.note_id` attribute that voice-state objects must expose. -/
class HasNoteId (S : Type) where
  note_id : S → ℤ

/-- `Event`. -/
structure Event (S : Type) where
  kind : EventKind
  data : S
deriving DecidableEq, Repr

/-- `Event.note_id`: read from the carried data. -/
def Event.note_id {S : Type} [HasNoteId S] (ev : Event S) : ℤ := HasNoteId.note_id ev.data

/-- The predicate `evt.kind == EventKind.NOTE_OFF` used by `get_simplified`. -/
def isOffEv {S : Type} (ev : Event S) : Bool := decide (ev.kind = EventKind.NOTE_OFF)

/-- The predicate `evt.kind == EventKind.NOTE_ON` used by `get_simplified`. -/
def isOnEv {S : Type} (ev : Event S) : Bool := decide (ev.kind = EventKind.NOTE_ON)

/-- The per-note-id body of `EventBin.get_simplified`: first NOTE_OFF (if
any) then first NOTE_ON (if any); a note id producing no events is absent
from the simplified dict. -/
def simplifyEntry {S : Type} (p : ℤ × List (Event S)) : Option (ℤ × List (Event S)) :=
  let offs := p.2.filter isOffEv
  let ons := p.2.filter isOnEv
  if offs.isEmpty && ons.isEmpty then none
  else some (p.1, offs.take 1 ++ ons.take 1)

/-- `EventBin`: the `events` dict (`note_id -> ordered list of events`) as an
insertion-ordered association list, matching Python dict iteration order. -/
structure EventBin (S : Type) where
  events : List (ℤ × List (Event S)) := []
deriving DecidableEq, Repr

namespace EventBin

variable {S : Type} [HasNoteId S]

/-- Dict update `d[k].append(x)` on an insertion-ordered association list:
an existing key keeps its position, a new key goes to the end. -/
def assocAppend {α : Type} : List (ℤ × List α) → ℤ → α → List (ℤ × List α)
  | [], k, x => [(k, [x])]
  | p :: rest, k, x =>
    if p.1 = k then (p.1, p.2 ++ [x]) :: rest else p :: assocAppend rest k x

/-- `EventBin.add_event`: append under the event's note id (new ids go to the
end, as in Python dict insertion). -/
def add_event (b : EventBin S) (ev : Event S) : EventBin S :=
  { events := EventBin.assocAppend b.events ev.note_id ev }

/-- `EventBin.get_simplified`: per note id keep the first NOTE_OFF (if any)
followed by the first NOTE_ON (if any); ids whose list yields nothing are
dropped (the Python defaultdict is never touched for them). -/
def get_simplified (b : EventBin S) : EventBin S :=
  { events := b.events.filterMap simplifyEntry }

end EventBin

/-- `CallbackSynth` from `src/audio/core.py`; the process callback receives
`(sample_rate, n, num_samples, state, config)`. -/
structure CallbackSynth (S C : Type) where
  sample_rate : ℤ
  state : S
  config : C
  process_cb : ℤ → ℕ → ℕ → S → C → List (ℚ × ℚ)
  clone_state_cb : S → S
  clone_config_cb : C → C
  initial_state : S
  reset_cb : Option (S → C → S) := none
  n : ℕ := 0

namespace CallbackSynth

variable {S C : Type}

/-- `CallbackSynth.set_state`. -/
def set_state (s : CallbackSynth S C) (new_state : S) : CallbackSynth S C :=
  { s with state := new_state }

/-- `CallbackSynth.process`: frames from the callback, counter advanced by
`num_samples`. -/
def process (s : CallbackSynth S C) (num_samples : ℕ) : List (ℚ × ℚ) × CallbackSynth S C :=
  (s.process_cb s.sample_rate s.n num_samples s.state s.config,
   { s with n := s.n + num_samples })

/-- `CallbackSynth.reset`: counter to 0, optional reset callback on the state. -/
def reset (s : CallbackSynth S C) : CallbackSynth S C :=
  { s with
    n := 0
    state := match s.reset_cb with
      | some f => f s.state s.config
      | none => s.state }

/-- `CallbackSynth.clone` (via `CallbackSynth.create`). -/
def clone (s : CallbackSynth S C) : CallbackSynth S C :=
  let initial_state_copy := s.clone_state_cb s.initial_state
  { sample_rate := s.sample_rate
    state := s.clone_state_cb initial_state_copy
    config := s.clone_config_cb s.config
    process_cb := s.process_cb
    clone_state_cb := s.clone_state_cb
    clone_config_cb := s.clone_config_cb
    initial_state := initial_state_copy
    reset_cb := s.reset_cb }

end CallbackSynth

/-- `Voice` from `src/audio/event_scheduler.py`.  The one enter-idle handler
that `Voice.__init__` registers (`make_self_not_running`) is modelled by
`Voice.process` clearing `running` whenever `ExpADSR.generate` reports that
the handlers fired. -/
structure Voice (S C : Type) where
  running : Bool
  synth : CallbackSynth S C
  adsr : Option (ExpADSR Unit) := none
  last_note_on_sample_index : ℤ := 0
  last_note_off_sample_index : ℤ := 0
  current_note_id : Option ℤ := none

namespace Voice

variable {S C : Type}

/-- `Voice.__init__`. -/
def init (synth : CallbackSynth S C) (adsr : Option (ExpADSR Unit)) : Voice S C :=
  { running := false
    synth := synth
    adsr := adsr.map (fun a => a.register_enter_idle_handler ()) }

/-- `Voice.note_on` with its three keyword flags. -/
def note_on (v : Voice S C) (note_id : ℤ) (data : S) (global_sample_index : Option ℤ)
    (reset_adsr reset_synth trigger_adsr : Bool) : Voice S C :=
  let adsr := v.adsr.map (fun a =>
    let a1 := if reset_adsr then a.reset else a
    if trigger_adsr then a1.note_on else a1)
  let synth1 := v.synth.set_state data
  let synth2 := if reset_synth then synth1.reset else synth1
  { v with
    adsr := adsr
    synth := synth2
    current_note_id := some note_id
    running := true
    last_note_on_sample_index := global_sample_index.getD v.last_note_on_sample_index }

/-- `Voice.note_off`. -/
def note_off (v : Voice S C) (global_sample_index : Option ℤ) : Voice S C :=
  let v1 : Voice S C := match v.adsr with
    | some a => { v with adsr := some a.note_off }
    | none => { v with running := false }
  { v1 with
    last_note_off_sample_index := global_sample_index.getD v.last_note_off_sample_index }

/-- `Voice.process`: generator frames times envelope values (`zip` truncates
to the shorter sequence, exactly as in the source). -/
def process (e : ℚ → ℚ) (v : Voice S C) (num_samples : ℕ) :
    List (ℚ × ℚ) × Voice S C :=
  let pr := v.synth.process num_samples
  match v.adsr with
  | none =>
      (List.zipWith (fun (val : ℚ) (f : ℚ × ℚ) => (val * f.1, val * f.2))
        (List.replicate pr.1.length 1) pr.1,
       { v with synth := pr.2 })
  | some a =>
      let g := a.generate e num_samples
      (List.zipWith (fun (val : ℚ) (f : ℚ × ℚ) => (val * f.1, val * f.2)) g.1 pr.1,
       { v with
         synth := pr.2
         adsr := some g.2.1
         running := if g.2.2 then false else v.running })

/-- `Voice.get_adsr_stage`. -/
def get_adsr_stage (v : Voice S C) : Option ADSRStage := v.adsr.map (·.stage)

end Voice

/-- `EventScheduler` (configuration, voice pool and timeline). -/
structure EventScheduler (S C : Type) where
  synth : CallbackSynth S C
  adsr : Option (ExpADSR Unit)
  is_using_adsr : Bool
  sample_rate : ℤ
  max_voices : ℤ
  tick_size : ℤ
  buffer_size : ℤ
  retrigger_mode : RetriggerMode
  voices : List (Voice S C)
  event_bins : List (ℤ × EventBin S) := []

/-- The defaultdict access `self.event_bins[q].add_event(ev)` on the
insertion-ordered timeline: an existing key keeps its position and its bin
gains the event; a missing key appends a fresh bin holding the event. -/
def binsUpdate {S : Type} [HasNoteId S] : List (ℤ × EventBin S) → ℤ → Event S →
    List (ℤ × EventBin S)
  | [], q, ev => [(q, EventBin.add_event { events := [] } ev)]
  | p :: rest, q, ev =>
    if p.1 = q then (p.1, p.2.add_event ev) :: rest else p :: binsUpdate rest q ev

/-- Timeline lookup (missing key yields the empty bin). -/
def binsGet {S : Type} (bins : List (ℤ × EventBin S)) (q : ℤ) : EventBin S :=
  ((bins.find? (fun p => decide (p.1 = q))).map (·.2)).getD { events := [] }

namespace EventScheduler

variable {S C : Type}

/-- `EventScheduler.__init__`: the only validation performed is the
`buffer_size % tick_size` check; the voice pool holds one cloned voice per
`range(max_voices)` element. -/
def init (sample_rate : ℤ) (max_voices : ℤ) (synth : CallbackSynth S C)
    (adsr : Option (ExpADSR Unit)) (tick_size : ℤ) (buffer_size : ℤ)
    (retrigger_mode : RetriggerMode) : Except String (EventScheduler S C) :=
  if buffer_size % tick_size ≠ 0 then
    Except.error "We enforce condition that buffer_size must be a multiple of tick_size."
  else
    Except.ok
      { synth := synth
        adsr := adsr
        is_using_adsr := adsr.isSome
        sample_rate := sample_rate
        max_voices := max_voices
        tick_size := tick_size
        buffer_size := buffer_size
        retrigger_mode := retrigger_mode
        voices := (List.range max_voices.toNat).map
          (fun _ => Voice.init synth.clone (adsr.map (·.clone)))
        event_bins := [] }

/-- `EventScheduler.add_event`: floor quantization for NOTE_ON, ceil for
NOTE_OFF, both to the `tick_size` grid. -/
def add_event [HasNoteId S] (s : EventScheduler S C) (time : ℚ) (kind : EventKind)
    (data : S) : EventScheduler S C :=
  let quantized_sample_index : ℤ :=
    if kind = EventKind.NOTE_ON then
      ⌊time * (s.sample_rate : ℚ) / (s.tick_size : ℚ)⌋ * s.tick_size
    else
      ⌈time * (s.sample_rate : ℚ) / (s.tick_size : ℚ)⌉ * s.tick_size
  let ev : Event S := { kind := kind, data := data }
  { s with event_bins := binsUpdate s.event_bins quantized_sample_index ev }

/-- `EventScheduler.add_note`. -/
def add_note [HasNoteId S] (s : EventScheduler S C) (time duration : ℚ) (data : S) :
    EventScheduler S C :=
  (s.add_event time EventKind.NOTE_ON data).add_event (time + duration)
    EventKind.NOTE_OFF data

end EventScheduler

/-- `EventScheduler._get_retrigger_voice` as a pool index: the first running
voice carrying `note_id` (Python object identity = pool index here). -/
def findRetriggerIdx {S C : Type} (noteId : ℤ) (voices : List (Voice S C)) : Option ℕ :=
  voices.findIdx? (fun v => v.running && decide (v.current_note_id = some noteId))

/-- Replace the element at index `i` (mutation of the Python voice object the
scheduler holds at that pool position). -/
def listModify {α : Type} (l : List α) (i : ℕ) (f : α → α) : List α :=
  match l.get? i with
  | some a => l.set i (f a)
  | none => l

/-- Insertion into a sorted list: `a` goes before the first `b` with
`le a b` (so insertion keeps earlier-inserted equals in front). -/
def orderedInsertLe {α : Type} (le : α → α → Bool) (a : α) : List α → List α
  | [] => [a]
  | b :: l => if le a b then a :: b :: l else b :: orderedInsertLe le a l

/-- Python's stable `sorted` modelled as a stable insertion sort (structural
recursion, so concrete runs evaluate; for a total `le` this produces the
same list as any stable sort). -/
def insertionSortLe {α : Type} (le : α → α → Bool) : List α → List α
  | [] => []
  | a :: l => orderedInsertLe le a (insertionSortLe le l)

/-- `EventScheduler._get_or_steal_voice` as a pool index.  Python's
`sorted(...)[0]` (a stable sort) becomes `insertionSortLe` + `head?` over the
enumerated pool; `none` is the `IndexError` an empty pool would raise. -/
def getOrStealVoiceIdx {S C : Type} (is_using_adsr : Bool) (voices : List (Voice S C)) :
    Option ℕ :=
  let enum := voices.enum
  match enum.find? (fun p => !p.2.running) with
  | some p => some p.1
  | none =>
    if !is_using_adsr then
      ((insertionSortLe (fun p q =>
          decide (p.2.last_note_on_sample_index ≤ q.2.last_note_on_sample_index))
          enum).head?).map Prod.fst
    else
      let release_voices := enum.filter
        (fun p => decide (p.2.get_adsr_stage = some ADSRStage.RELEASE))
      if release_voices.isEmpty then
        ((insertionSortLe (fun p q =>
            decide (p.2.last_note_on_sample_index ≤ q.2.last_note_on_sample_index))
            enum).head?).map Prod.fst
      else
        ((insertionSortLe (fun p q =>
            decide (p.2.last_note_off_sample_index ≤ q.2.last_note_off_sample_index))
            release_voices).head?).map Prod.fst

/-- One event interpretation inside `EventScheduler.render`: NOTE_ON picks a
voice by retrigger mode and steal policy and (hard or soft) retriggers it;
NOTE_OFF releases the first running voice with the event's note id (a stray
NOTE_OFF is silently ignored). -/
def handleEvent {S C : Type} [HasNoteId S] (mode : RetriggerMode) (is_using_adsr : Bool)
    (bin_index : ℤ) (noteId : ℤ) (ev : Event S) (voices : List (Voice S C)) :
    List (Voice S C) :=
  match ev.kind with
  | EventKind.NOTE_ON =>
    let retrig := if mode ≠ RetriggerMode.ALLOW_TAILS then findRetriggerIdx noteId voices
      else none
    match retrig with
    | some i =>
      if mode = RetriggerMode.ATTACK_FROM_CURRENT_LEVEL ∧ is_using_adsr = true then
        listModify voices i (fun v =>
          v.note_on noteId ev.data (some bin_index) false false true)
      else
        listModify voices i (fun v =>
          v.note_on noteId ev.data (some bin_index) true true true)
    | none =>
      match getOrStealVoiceIdx is_using_adsr voices with
      | some i =>
        listModify voices i (fun v =>
          v.note_on noteId ev.data (some bin_index) true true true)
      | none => voices
  | EventKind.NOTE_OFF =>
    match voices.findIdx? (fun v => v.running && decide (v.current_note_id = some noteId)) with
    | some i => listModify voices i (fun v => v.note_off (some bin_index))
    | none => voices

/-- Pointwise accumulation of voice frames into the running mix
(`mix_left[i] += l; mix_right[i] += r`); the mix length never changes. -/
def mixInto (mix : List (ℚ × ℚ)) (fr : List (ℚ × ℚ)) : List (ℚ × ℚ) :=
  mix.mapIdx (fun i m =>
    match fr.get? i with
    | some f => (m.1 + f.1, m.2 + f.2)
    | none => m)

/-- The recursion behind `render_segment` for a positive sample count:
running voices are processed and summed, idle voices are skipped. -/
def renderSegmentPos {S C : Type} (e : ℚ → ℚ) (num : ℕ) :
    List (Voice S C) → List (ℚ × ℚ) × List (Voice S C)
  | [] => (List.replicate num (0, 0), [])
  | v :: vs =>
    let rest := renderSegmentPos e num vs
    if v.running then
      let pr := v.process e num
      (mixInto rest.1 pr.1, pr.2 :: rest.2)
    else
      (rest.1, v :: rest.2)

/-- `render_segment` inside `EventScheduler.render`: non-positive lengths
return the empty segment without touching any voice. -/
def renderSegment {S C : Type} (e : ℚ → ℚ) (voices : List (Voice S C)) (num : ℤ) :
    List (ℚ × ℚ) × List (Voice S C) :=
  if num ≤ 0 then ([], voices) else renderSegmentPos e num.toNat voices

/-- Interpret every event of a bin, in dict order per note id. -/
def processBin {S C : Type} [HasNoteId S] (mode : RetriggerMode) (is_using_adsr : Bool)
    (bin_index : ℤ) (bin : EventBin S) (voices : List (Voice S C)) : List (Voice S C) :=
  bin.events.foldl (fun vs p =>
    p.2.foldl (fun vs2 ev => handleEvent mode is_using_adsr bin_index p.1 ev vs2) vs)
    voices

/-- The static data of one `render` call. -/
structure RenderCfg where
  bufferSize : ℤ
  mode : RetriggerMode
  isUsingAdsr : Bool
  silenceAmplitude : ℚ
  lastEvent : ℤ
  lastNoteOff : ℤ
  maxSamples : ℤ

/-- The loop-carried state of `render`. -/
structure LoopState (S C : Type) where
  voices : List (Voice S C)
  remaining : List (ℤ × EventBin S)
  block_frames : Option (List (ℚ × ℚ))
  num_processed_blocks : ℕ

/-- Handling of one event bin inside a block: render the sub-segment up to
the bin's offset (when positive), then interpret the bin's events. -/
def blockStep {S C : Type} [HasNoteId S] (cfg : RenderCfg) (e : ℚ → ℚ) (cursor : ℤ)
    (st : List (Voice S C) × List (ℚ × ℚ) × ℤ) (b : ℤ × EventBin S) :
    List (Voice S C) × List (ℚ × ℚ) × ℤ :=
  let offset_in_block := b.1 - cursor
  let segment_length := offset_in_block - st.2.2
  let st1 :=
    if 0 < segment_length then
      let seg := renderSegment e st.1 segment_length
      (seg.2, st.2.1 ++ seg.1, offset_in_block)
    else st
  (processBin cfg.mode cfg.isUsingAdsr b.1 b.2 st1.1, st1.2.1, st1.2.2)

/-- One full block: fold the bins that fall inside it, then render the final
sub-segment up to `buffer_size`. -/
def renderBlock {S C : Type} [HasNoteId S] (cfg : RenderCfg) (e : ℚ → ℚ) (cursor : ℤ)
    (blockBins : List (ℤ × EventBin S)) (voices : List (Voice S C)) :
    List (ℚ × ℚ) × List (Voice S C) :=
  let st := blockBins.foldl (blockStep cfg e cursor) (voices, [], 0)
  let remaining_samples := cfg.bufferSize - st.2.2
  if 0 < remaining_samples then
    let seg := renderSegment e st.1 remaining_samples
    (st.2.1 ++ seg.1, seg.2)
  else (st.2.1, st.1)

/-- One iteration of the `while` loop of `render`: extract this block's bins,
render the block, and compute the stop decision taken after the yield. -/
def renderIter {S C : Type} [HasNoteId S] (cfg : RenderCfg) (e : ℚ → ℚ)
    (st : LoopState S C) : LoopState S C × List (ℚ × ℚ) × Bool :=
  let cursor : ℤ := (st.num_processed_blocks : ℤ) * cfg.bufferSize
  let sp := st.remaining.span (fun p => decide (p.1 < cursor + cfg.bufferSize))
  let bk := renderBlock cfg e cursor sp.1 st.voices
  let cursor_end := cursor + cfg.bufferSize
  let past_last_event : Bool := decide (cfg.lastEvent ≤ cursor_end)
  let stop1 : Bool := past_last_event && decide (cfg.lastNoteOff + cfg.maxSamples ≤ cursor_end)
  let stop2 : Bool := past_last_event && sp.2.isEmpty &&
    (!(bk.2.any (fun v => v.running)) ||
      bk.1.all (fun f => decide (|f.1| ≤ cfg.silenceAmplitude)
        && decide (|f.2| ≤ cfg.silenceAmplitude)))
  ({ voices := bk.2
     remaining := sp.2
     block_frames := some bk.1
     num_processed_blocks := st.num_processed_blocks + 1 },
   bk.1, stop1 || stop2)

/-- The `while` condition of `render`. -/
def whileCond {S C : Type} (st : LoopState S C) : Bool :=
  st.block_frames.isNone || st.voices.any (fun v => v.running) || !st.remaining.isEmpty

/-- The fueled `while` loop of `render`: yielded blocks, final state, and
whether the loop finished (`false` only on fuel exhaustion, which cannot
happen for the fuel `render` supplies when `buffer_size > 0`). -/
def renderLoop {S C : Type} [HasNoteId S] (cfg : RenderCfg) (e : ℚ → ℚ) :
    ℕ → LoopState S C → List (List (ℚ × ℚ)) × LoopState S C × Bool
  | 0, st => ([], st, false)
  | Nat.succ fuel, st =>
    if whileCond st then
      let it := renderIter cfg e st
      if it.2.2 then ([it.2.1], it.1, true)
      else
        let r := renderLoop cfg e fuel it.1
        (it.2.1 :: r.1, r.2.1, r.2.2)
    else ([], st, true)

/-- The `last_note_off_sample_index` scan of `render`. -/
def lastNoteOffIndex {S : Type} (bins : List (ℤ × EventBin S)) : Option ℤ :=
  bins.foldl (fun acc p =>
    p.2.events.foldl (fun acc2 q =>
      q.2.foldl (fun acc3 ev =>
        if ev.kind = EventKind.NOTE_OFF then
          match acc3 with
          | none => some p.1
          | some x => if x < p.1 then some p.1 else acc3
        else acc3) acc2) acc) none

/-- `max(remaining_bins.keys())` (only ever used on a nonempty timeline). -/
def maxKeyD {S : Type} (bins : List (ℤ × EventBin S)) : ℤ :=
  match bins.map Prod.fst with
  | [] => 0
  | k :: ks => ks.foldl max k

/-- Step 1 of `render`: the simplified timeline sorted by bin index. -/
def sortedSimplifiedBins {S C : Type} [HasNoteId S] (s : EventScheduler S C) :
    List (ℤ × EventBin S) :=
  insertionSortLe (fun p q => decide (p.1 ≤ q.1))
    (s.event_bins.map (fun p => (p.1, p.2.get_simplified)))

/-- The static sample index past which the render loop must stop:
`max(last_event_index, last_note_off_index + max_tail_samples)`. -/
def renderStopTarget {S C : Type} [HasNoteId S] (s : EventScheduler S C) (tailS : ℚ) : ℤ :=
  max (maxKeyD (sortedSimplifiedBins s))
    ((lastNoteOffIndex (sortedSimplifiedBins s)).getD 0
      + intTrunc (tailS * (s.sample_rate : ℚ)))

/-- `EventScheduler.render`, fully drained: the yielded blocks, the scheduler
as the run leaves it (only `voices` mutate) and the finished flag.
`silence_amplitude` stands for `10 ** (silence_db / 20)`, which the Python
code computes from `silence_db`; for the default -60 dB it is exactly
1/1000.  `e` abstracts `math.exp` inside the voices' envelopes. -/
def EventScheduler.render {S C : Type} [HasNoteId S] (s : EventScheduler S C) (e : ℚ → ℚ)
    (silence_amplitude : ℚ) (max_seconds_after_last_note_off : ℚ) :
    List (List (ℚ × ℚ)) × EventScheduler S C × Bool :=
  let remaining_bins := sortedSimplifiedBins s
  if remaining_bins.isEmpty then ([], s, true)
  else
    match lastNoteOffIndex remaining_bins with
    | none => ([], s, true)
    | some last_note_off_sample_index =>
      let last_event_sample_index := maxKeyD remaining_bins
      let max_samples_after_last_note_off :=
        intTrunc (max_seconds_after_last_note_off * (s.sample_rate : ℚ))
      let cfg : RenderCfg :=
        { bufferSize := s.buffer_size
          mode := s.retrigger_mode
          isUsingAdsr := s.is_using_adsr
          silenceAmplitude := silence_amplitude
          lastEvent := last_event_sample_index
          lastNoteOff := last_note_off_sample_index
          maxSamples := max_samples_after_last_note_off }
      let fuel := (max last_event_sample_index
        (last_note_off_sample_index + max_samples_after_last_note_off)).toNat + 2
      let r := renderLoop cfg e fuel
        { voices := s.voices
          remaining := remaining_bins
          block_frames := none
          num_processed_blocks := 0 }
      (r.1, { s with voices := r.2.1.voices }, r.2.2)

/-- A small concrete envelope used by witnesses. -/
def sampleEnvA : ExpADSR Unit :=
  { sample_rate := 10, attack_s := 1, decay_s := 1, sustain_level := 1/2, release_s := 1 }

/-- `Except.ok`-ness as a Bool (to state construction outcomes decidably). -/
def exceptIsOk {ε α : Type} : Except ε α → Bool
  | Except.ok _ => true
  | Except.error _ => false

instance : HasNoteId ℤ := ⟨fun x => x⟩

/-- A concrete constant-output generator used by witnesses and
counterexamples: every frame is `(1/2, 1/2)`. -/
def testSynth : CallbackSynth ℤ Unit :=
  { sample_rate := 8
    state := 0
    config := ()
    process_cb := fun _ _ num _ _ => List.replicate num (1/2, 1/2)
    clone_state_cb := fun x => x
    clone_config_cb := fun c => c
    initial_state := 0 }


/-- The first element of a list attaining the strictly smallest key — the
element `sorted(...)[0]` of a stable sort returns. -/
def firstMinBy {α : Type} (key : α → ℤ) : List α → Option α
  | [] => none
  | a :: l =>
    match firstMinBy key l with
    | none => some a
    | some b => if key b < key a then some b else some a

/-- A single already-running voice with note id 5 (for witnesses). -/
def runningVoice : Voice ℤ Unit :=
  { running := true, synth := testSynth, adsr := none, current_note_id := some 5 }

/-- The scheduler `EventScheduler.init 8 1 testSynth none 1 8 ALLOW_TAILS`
yields (written out, since `init` returns `Except`). -/
def cexSchedBase : EventScheduler ℤ Unit :=
  { synth := testSynth
    adsr := none
    is_using_adsr := false
    sample_rate := 8
    max_voices := 1
    tick_size := 1
    buffer_size := 8
    retrigger_mode := RetriggerMode.ALLOW_TAILS
    voices := [Voice.init testSynth.clone none]
    event_bins := [] }

/-- One note of a half second starting at 0 (NOTE_ON at sample 0, NOTE_OFF at
sample 4) on the 8 Hz scheduler. -/
def cexSched : EventScheduler ℤ Unit := cexSchedBase.add_note 0 (1/2) 5

-- ==================== theorems ====================

section AdsrLemmas

variable {H : Type} (e : ℚ → ℚ)

/-- In SUSTAIN, `generate` holds the current value and changes nothing. -/
theorem generate_sustain (a : ExpADSR H) (h : a.stage = .SUSTAIN) (m : ℕ) :
    a.generate e m = (List.replicate m a.value, a, false) := by
  induction m with
  | zero => simp [ExpADSR.generate]
  | succ m ih =>
    simp [ExpADSR.generate, ExpADSR.generateStep, h, ih, List.replicate_succ]

/-- Mid-segment value formula: while the segment counter stays inside the
segment, sample `k` of `generate` is the exponential-approach formula with
exponent `-(i + k) / tau`. -/
theorem generate_get_midSegment :
    ∀ (m : ℕ) (a : ExpADSR H) (k : ℕ),
      (a.stage = .ATTACK ∨ a.stage = .DECAY ∨ a.stage = .RELEASE) →
      0 ≤ a.i → a.i + k < a.n → k < m →
      (a.generate e m).1.get? k
        = some (a.target + (a.start - a.target) * e (-((a.i : ℚ) + k) / a.tau)) := by
  intro m
  induction m with
  | zero => intro a k _ _ _ hk; omega
  | succ m ih =>
    intro a k hstg hi hkn hk
    have hn : 0 < a.n := by omega
    have hnle : ¬ a.n ≤ 0 := by omega
    have hstep : ExpADSR.expStep e a =
        { a with value := a.target + (a.start - a.target) * e (-(a.i : ℚ) / a.tau),
                 i := a.i + 1 } := by
      simp [ExpADSR.expStep, hnle]
    rcases k with _ | k
    · -- head sample: value computed with exponent i, then a possible
      -- transition that never modifies `value`.
      have hval : ((ExpADSR.generateStep e a).1).value
          = a.target + (a.start - a.target) * e (-(a.i : ℚ) / a.tau) := by
        rcases hstg with h | h | h <;>
          · simp only [ExpADSR.generateStep, h, hstep]
            split
            · rfl
            · rfl
      simp [ExpADSR.generate, hval]
    · -- tail: no transition happened because i + 1 ≤ i + (k+1) < n.
      have hlt : a.i + 1 < a.n := by push_cast at hkn; omega
      have hnostep : (ExpADSR.generateStep e a).1 = ExpADSR.expStep e a := by
        rcases hstg with h | h | h <;>
          · simp only [ExpADSR.generateStep, h]
            split
            · next hcond =>
                exfalso
                rw [hstep] at hcond
                simp only at hcond
                omega
            · rfl
      have hrec := ih ((ExpADSR.generateStep e a).1) k
        (by rw [hnostep, hstep]; rcases hstg with h | h | h <;> simp [h])
        (by rw [hnostep, hstep]; simp; omega)
        (by rw [hnostep, hstep]; simp only; push_cast at hkn ⊢; omega)
        (by omega)
      rw [hnostep, hstep] at hrec
      simp only at hrec
      have hexp : ((a.i + 1 : ℤ) : ℚ) + (k : ℚ) = (a.i : ℚ) + ((k + 1 : ℕ) : ℚ) := by
        push_cast
        ring
      simp only [ExpADSR.generate, hnostep, hstep, List.get?]
      rw [hrec, hexp]
end AdsrLemmas

/-- C7: for the ExpADSR envelope, in any freshly entered non-sustain segment of
length `N > 0`, the `k`-th generated value equals
`target + (start - target) * exp(-k / tau)` with `tau = N / num_tau` and
`start` the envelope value captured at stage entry; the stage targets are
ATTACK → 1, DECAY → sustain_level, RELEASE → 0; SUSTAIN holds the value
unchanged and never snaps it to `sustain_level`. -/
theorem exp_adsr_segment_formula (e : ℚ → ℚ) (a0 : ExpADSR Unit) (stg : ADSRStage)
    (tgt secs : ℚ) (m k : ℕ)
    (hstg : stg = .ATTACK ∨ stg = .DECAY ∨ stg = .RELEASE)
    (hn : 0 < (a0.enterSegment stg tgt secs).n)
    (hk : (k : ℤ) < (a0.enterSegment stg tgt secs).n)
    (hkm : k < m) :
    ((a0.enterSegment stg tgt secs).generate e m).1.get? k
        = some (tgt + (a0.value - tgt) * e (-(k : ℚ) / (a0.enterSegment stg tgt secs).tau))
    ∧ (a0.enterSegment stg tgt secs).tau = ((a0.enterSegment stg tgt secs).n : ℚ) / a0.num_tau
    ∧ a0.enterAttack.target = 1
    ∧ a0.enterDecay.target = a0.sustain_level
    ∧ a0.enterRelease.target = 0
    ∧ a0.note_on = a0.enterAttack
    ∧ a0.enterAttack.start = a0.value
    ∧ a0.enterDecay.start = a0.value
    ∧ a0.enterRelease.start = a0.value
    ∧ (∀ (b : ExpADSR Unit) (mm : ℕ), b.stage = .SUSTAIN →
        (b.generate e mm).1 = List.replicate mm b.value ∧ (b.generate e mm).2.1.value = b.value) := by
  have hni : (a0.enterSegment stg tgt secs).i = 0 := rfl
  have hnn : (a0.enterSegment stg tgt secs).n = a0.secs_to_samples secs := rfl
  have hns : (a0.enterSegment stg tgt secs).stage = stg := rfl
  have hnst : (a0.enterSegment stg tgt secs).start = a0.value := rfl
  have hnt : (a0.enterSegment stg tgt secs).target = tgt := rfl
  refine ⟨?_, ?_, rfl, rfl, rfl, rfl, rfl, rfl, rfl, ?_⟩
  · have h := generate_get_midSegment e m (a0.enterSegment stg tgt secs) k
      (by rw [hns]; exact hstg)
      (by rw [hni])
      (by rw [hni]; simpa using hk)
      hkm
    rw [hni, hnst, hnt] at h
    simpa using h
  · have hn' : 0 < a0.secs_to_samples secs := by rwa [hnn] at hn
    show (if 0 < a0.secs_to_samples secs then ((a0.secs_to_samples secs : ℚ)) / a0.num_tau else 1)
        = ((a0.enterSegment stg tgt secs).n : ℚ) / a0.num_tau
    rw [if_pos hn', hnn]
  · intro b mm hb
    rw [generate_sustain e b hb mm]
    exact ⟨rfl, rfl⟩

/-- Witness for C7 at a concrete configuration. -/
theorem exp_adsr_segment_formula_witness :
    (ADSRStage.ATTACK = ADSRStage.ATTACK ∨ ADSRStage.ATTACK = ADSRStage.DECAY ∨
        ADSRStage.ATTACK = ADSRStage.RELEASE)
    ∧ 0 < (sampleEnvA.enterSegment .ATTACK 1 1).n
    ∧ ((3 : ℕ) : ℤ) < (sampleEnvA.enterSegment .ATTACK 1 1).n
    ∧ (3 : ℕ) < (5 : ℕ)
    ∧ ((sampleEnvA.enterSegment .ATTACK 1 1).generate (fun q => 1 + q) 5).1.get? 3
        = some (1 + (sampleEnvA.value - 1) *
            (1 + (-((3 : ℕ) : ℚ) / (sampleEnvA.enterSegment .ATTACK 1 1).tau))) := by
  refine ⟨Or.inl rfl, by decide, by decide, by decide, ?_⟩
  exact (exp_adsr_segment_formula (fun q => 1 + q) sampleEnvA .ATTACK 1 1 5 3
    (Or.inl rfl) (by decide) (by decide) (by decide)).1



/-- C10: `ExpADSR.clone` copies exactly the six configuration parameters,
starts in IDLE with value 0 and default (reset) segment state, and has an
empty handler list; handlers registered on the prototype do not carry over. -/
theorem exp_adsr_clone_spec {H : Type} (a : ExpADSR H) :
    a.clone.sample_rate = a.sample_rate
    ∧ a.clone.attack_s = a.attack_s
    ∧ a.clone.decay_s = a.decay_s
    ∧ a.clone.sustain_level = a.sustain_level
    ∧ a.clone.release_s = a.release_s
    ∧ a.clone.num_tau = a.num_tau
    ∧ a.clone.stage = .IDLE
    ∧ a.clone.value = 0
    ∧ a.clone.i = 0
    ∧ a.clone.n = 0
    ∧ a.clone.start = 0
    ∧ a.clone.target = 0
    ∧ a.clone.tau = 1
    ∧ a.clone.enter_idle_handlers = []
    ∧ (∀ h : H, (a.register_enter_idle_handler h).clone = a.clone) :=
  ⟨rfl, rfl, rfl, rfl, rfl, rfl, rfl, rfl, rfl, rfl, rfl, rfl, rfl, rfl, fun _ => rfl⟩

/-- Lookup at a matching head. -/
theorem binsGet_cons_eq {S : Type} (p : ℤ × EventBin S) (rest : List (ℤ × EventBin S))
    {q : ℤ} (h : p.1 = q) : binsGet (p :: rest) q = p.2 := by
  simp [binsGet, List.find?_cons, h]

/-- Lookup skips a non-matching head. -/
theorem binsGet_cons_ne {S : Type} (p : ℤ × EventBin S) (rest : List (ℤ × EventBin S))
    {q : ℤ} (h : ¬ p.1 = q) : binsGet (p :: rest) q = binsGet rest q := by
  simp [binsGet, List.find?_cons, h]

/-- Updating the timeline at key `q` changes only the bin at `q`, which gains
the event. -/
theorem binsGet_binsUpdate {S : Type} [HasNoteId S] (bins : List (ℤ × EventBin S))
    (q q' : ℤ) (ev : Event S) :
    binsGet (binsUpdate bins q ev) q'
      = if q' = q then (binsGet bins q).add_event ev else binsGet bins q' := by
  induction bins with
  | nil =>
    simp only [binsUpdate]
    by_cases h : q' = q
    · rw [binsGet_cons_eq (q, EventBin.add_event { events := [] } ev) [] h.symm, if_pos h]
      rfl
    · rw [binsGet_cons_ne _ _ (fun hc => h hc.symm), if_neg h]
  | cons p rest ih =>
    simp only [binsUpdate]
    by_cases hp : p.1 = q
    · rw [if_pos hp]
      by_cases h : q' = q
      · rw [binsGet_cons_eq (p.1, p.2.add_event ev) rest (hp.trans h.symm), if_pos h,
          binsGet_cons_eq p rest hp]
      · rw [binsGet_cons_ne _ _ (fun hc => h (by rw [← hc]; exact hp)), if_neg h,
          binsGet_cons_ne _ _ (fun hc => h (by rw [← hc]; exact hp))]
    · rw [if_neg hp]
      by_cases hpq : p.1 = q'
      · have h : ¬ q' = q := fun hc => hp (by rw [hpq, hc])
        rw [binsGet_cons_eq p (binsUpdate rest q ev) hpq, if_neg h,
          binsGet_cons_eq p rest hpq]
      · by_cases h : q' = q
        · rw [binsGet_cons_ne _ _ hpq, ih, if_pos h, if_pos h,
            binsGet_cons_ne _ _ hp]
        · rw [binsGet_cons_ne _ _ hpq, ih, if_neg h, if_neg h,
            binsGet_cons_ne _ _ hpq]

/-- C3: `add_event(t, kind, data)` places the event in the bin at
`floor(t * sample_rate / tick_width) * tick_width` for NOTE_ON and at
`ceil(t * sample_rate / tick_width) * tick_width` for NOTE_OFF, leaving every
other bin unchanged; `add_note(t, d, data)` is NOTE_ON at `t` followed by
NOTE_OFF at `t + d`. -/
theorem add_event_quantization {S C : Type} [HasNoteId S] (s : EventScheduler S C)
    (t d : ℚ) (data : S) (q : ℤ) :
    (binsGet (s.add_event t EventKind.NOTE_ON data).event_bins q
      = if q = ⌊t * (s.sample_rate : ℚ) / (s.tick_size : ℚ)⌋ * s.tick_size
        then (binsGet s.event_bins q).add_event { kind := EventKind.NOTE_ON, data := data }
        else binsGet s.event_bins q)
    ∧ (binsGet (s.add_event t EventKind.NOTE_OFF data).event_bins q
      = if q = ⌈t * (s.sample_rate : ℚ) / (s.tick_size : ℚ)⌉ * s.tick_size
        then (binsGet s.event_bins q).add_event { kind := EventKind.NOTE_OFF, data := data }
        else binsGet s.event_bins q)
    ∧ s.add_note t d data
      = (s.add_event t EventKind.NOTE_ON data).add_event (t + d) EventKind.NOTE_OFF data := by
  refine ⟨?_, ?_, rfl⟩ <;>
    · simp [EventScheduler.add_event, binsGet_binsUpdate]
      split
      · next hq => rw [hq]
      · rfl

/-- Filtering a simplified entry for NOTE_OFF recovers exactly the kept
first NOTE_OFF. -/
theorem filter_isOffEv_simplified {S : Type} (evs : List (Event S)) :
    ((evs.filter isOffEv).take 1 ++ (evs.filter isOnEv).take 1).filter isOffEv
      = (evs.filter isOffEv).take 1 := by
  rw [List.filter_append]
  have h1 : ((evs.filter isOffEv).take 1).filter isOffEv = (evs.filter isOffEv).take 1 :=
    List.filter_eq_self.mpr (fun a ha => (List.mem_filter.mp (List.take_subset _ _ ha)).2)
  have h2 : ((evs.filter isOnEv).take 1).filter isOffEv = [] := by
    rw [List.filter_eq_nil_iff]
    intro a ha
    have hon := (List.mem_filter.mp (List.take_subset _ _ ha)).2
    simp only [isOnEv, decide_eq_true_eq] at hon
    simp [isOffEv, hon]
  rw [h1, h2, List.append_nil]

/-- Filtering a simplified entry for NOTE_ON recovers exactly the kept first
NOTE_ON. -/
theorem filter_isOnEv_simplified {S : Type} (evs : List (Event S)) :
    ((evs.filter isOffEv).take 1 ++ (evs.filter isOnEv).take 1).filter isOnEv
      = (evs.filter isOnEv).take 1 := by
  rw [List.filter_append]
  have h1 : ((evs.filter isOnEv).take 1).filter isOnEv = (evs.filter isOnEv).take 1 :=
    List.filter_eq_self.mpr (fun a ha => (List.mem_filter.mp (List.take_subset _ _ ha)).2)
  have h2 : ((evs.filter isOffEv).take 1).filter isOnEv = [] := by
    rw [List.filter_eq_nil_iff]
    intro a ha
    have hoff := (List.mem_filter.mp (List.take_subset _ _ ha)).2
    simp only [isOffEv, decide_eq_true_eq] at hoff
    simp [isOnEv, hoff]
  rw [h1, h2, List.nil_append]

/-- Shape of a successful `simplifyEntry`. -/
theorem simplifyEntry_eq_some {S : Type} {p q : ℤ × List (Event S)}
    (h : simplifyEntry p = some q) :
    q.1 = p.1 ∧ q.2 = (p.2.filter isOffEv).take 1 ++ (p.2.filter isOnEv).take 1 := by
  simp only [simplifyEntry] at h
  split at h
  · exact Option.noConfusion h
  · cases h
    exact ⟨rfl, rfl⟩

/-- A simplified entry is a fixed point of `simplifyEntry`. -/
theorem simplifyEntry_fix {S : Type} {p q : ℤ × List (Event S)}
    (h : simplifyEntry p = some q) : simplifyEntry q = some q := by
  have hne : ¬((p.2.filter isOffEv).isEmpty && (p.2.filter isOnEv).isEmpty) = true := by
    intro hc
    simp only [simplifyEntry, hc, if_true] at h
    exact Option.noConfusion h
  obtain ⟨h1, h2⟩ := simplifyEntry_eq_some h
  simp only [simplifyEntry, h2, filter_isOffEv_simplified, filter_isOnEv_simplified]
  have hcond : ¬(((p.2.filter isOffEv).take 1).isEmpty
      && ((p.2.filter isOnEv).take 1).isEmpty) = true := by
    intro hc
    apply hne
    simp only [Bool.and_eq_true, List.isEmpty_iff, List.take_eq_nil_iff] at hc ⊢
    rcases hc with ⟨h3 | h3, h4 | h4⟩
    · exact absurd h3 (by decide)
    · exact absurd h3 (by decide)
    · exact absurd h4 (by decide)
    · exact ⟨h3, h4⟩
  rw [if_neg hcond]
  rw [List.take_take, List.take_take]
  simp [← h2]

/-- `simplifyEntry`-filterMap is idempotent. -/
theorem filterMap_simplifyEntry_idem {S : Type} (l : List (ℤ × List (Event S))) :
    List.filterMap simplifyEntry (List.filterMap simplifyEntry l)
      = List.filterMap simplifyEntry l := by
  induction l with
  | nil => rfl
  | cons a l ih =>
    cases hfa : simplifyEntry a with
    | none => simp [List.filterMap_cons, hfa, ih]
    | some q => simp [List.filterMap_cons, hfa, simplifyEntry_fix hfa, ih]

/-- C4: every entry of a simplified bin is, for its note id, the first
recorded NOTE_OFF (if any) followed by the first recorded NOTE_ON (if any) of
the original entry — so at most one of each, extra same-tick events dropped —
and simplification is idempotent. -/
theorem event_bin_simplified_spec {S : Type} [HasNoteId S] (b : EventBin S) :
    (∀ p ∈ b.get_simplified.events, ∃ evs, (p.1, evs) ∈ b.events ∧
        p.2 = (evs.filter isOffEv).take 1 ++ (evs.filter isOnEv).take 1)
    ∧ (∀ p ∈ b.get_simplified.events,
        (p.2.filter isOffEv).length ≤ 1 ∧ (p.2.filter isOnEv).length ≤ 1)
    ∧ b.get_simplified.get_simplified = b.get_simplified := by
  refine ⟨?_, ?_, ?_⟩
  · intro p hp
    rw [EventBin.get_simplified, List.mem_filterMap] at hp
    obtain ⟨a, ha, hfa⟩ := hp
    obtain ⟨h1, h2⟩ := simplifyEntry_eq_some hfa
    refine ⟨a.2, ?_, h2⟩
    rw [h1]
    simpa using ha
  · intro p hp
    rw [EventBin.get_simplified, List.mem_filterMap] at hp
    obtain ⟨a, ha, hfa⟩ := hp
    obtain ⟨h1, h2⟩ := simplifyEntry_eq_some hfa
    rw [h2, filter_isOffEv_simplified, filter_isOnEv_simplified]
    exact ⟨List.length_take_le 1 _, List.length_take_le 1 _⟩
  · have hev : b.get_simplified.events = List.filterMap simplifyEntry b.events := rfl
    simp only [EventBin.get_simplified, hev, filterMap_simplifyEntry_idem]

/-- C8 counterexample: construction with non-positive `sample_rate` (0) and
non-positive `polyphony` (0) succeeds — `__init__` never validates them. -/
theorem scheduler_init_accepts_nonpositive :
    exceptIsOk (EventScheduler.init 0 0 testSynth none 4 512 RetriggerMode.ALLOW_TAILS)
      = true := rfl

/-- C8 (amended): construction fails exactly when
`block_size % tick_width ≠ 0`; `sample_rate` and `polyphony` are not
validated, and on success the pool holds `max(polyphony, 0)` voices. -/
theorem scheduler_init_spec {S C : Type} (sample_rate max_voices tick_size buffer_size : ℤ)
    (synth : CallbackSynth S C) (adsr : Option (ExpADSR Unit)) (mode : RetriggerMode)
    (_h : 0 < tick_size) :
    ((EventScheduler.init sample_rate max_voices synth adsr tick_size buffer_size
        mode).toOption.map (fun sch => sch.voices.length))
      = if buffer_size % tick_size = 0 then some max_voices.toNat else none := by
  by_cases hm : buffer_size % tick_size = 0 <;>
    simp [EventScheduler.init, hm, Except.toOption]

/-- Witness for C8's amended theorem. -/
theorem scheduler_init_spec_witness :
    (0 : ℤ) < 4 ∧
    ((EventScheduler.init 8 2 testSynth none 4 512
        RetriggerMode.ALLOW_TAILS).toOption.map (fun sch => sch.voices.length))
      = if (512 : ℤ) % 4 = 0 then some (2 : ℤ).toNat else none :=
  ⟨by decide, scheduler_init_spec 8 2 4 512 testSynth none RetriggerMode.ALLOW_TAILS
    (by decide)⟩

/-- C9: `render` never mutates the scheduler's event timeline: the scheduler
returned by a run carries `event_bins` unchanged — the loop state works only
on the (deep-copied) simplified bins, and the run writes back only `voices`. -/
theorem render_preserves_event_bins {S C : Type} [HasNoteId S] (s : EventScheduler S C)
    (e : ℚ → ℚ) (amp tail : ℚ) :
    ((s.render e amp tail).2.1).event_bins = s.event_bins := by
  rw [EventScheduler.render]
  split
  · rfl
  · split <;> rfl

/-- `mixInto` never changes the mix length. -/
theorem mixInto_length (mix fr : List (ℚ × ℚ)) : (mixInto mix fr).length = mix.length := by
  simp [mixInto]

/-- A positive segment always holds exactly `num` frames, however many voices
run and whatever their callbacks return. -/
theorem renderSegmentPos_length {S C : Type} (e : ℚ → ℚ) (num : ℕ)
    (voices : List (Voice S C)) : (renderSegmentPos e num voices).1.length = num := by
  induction voices with
  | nil => simp [renderSegmentPos]
  | cons v vs ih =>
    simp only [renderSegmentPos]
    split
    · simpa [mixInto_length] using ih
    · simpa using ih

/-- `render_segment` on a positive length. -/
theorem renderSegment_length {S C : Type} (e : ℚ → ℚ) (voices : List (Voice S C))
    (num : ℤ) (h : 0 < num) :
    (((renderSegment e voices num).1.length : ℤ)) = num := by
  rw [renderSegment, if_neg (by omega)]
  rw [renderSegmentPos_length]
  omega

/-- Invariant of the per-bin fold of a block: `segment_start` stays within
`[0, buffer_size]` and the accumulated frames have length `segment_start`. -/
theorem blockFold_length {S C : Type} [HasNoteId S] (cfg : RenderCfg) (e : ℚ → ℚ)
    (cursor : ℤ) :
    ∀ (bins : List (ℤ × EventBin S)) (voices : List (Voice S C))
      (frames : List (ℚ × ℚ)) (segStart : ℤ),
      0 ≤ segStart → segStart ≤ cfg.bufferSize →
      (frames.length : ℤ) = segStart →
      (∀ b ∈ bins, b.1 - cursor < cfg.bufferSize) →
      0 ≤ (bins.foldl (blockStep cfg e cursor) (voices, frames, segStart)).2.2
      ∧ (bins.foldl (blockStep cfg e cursor) (voices, frames, segStart)).2.2 ≤ cfg.bufferSize
      ∧ ((bins.foldl (blockStep cfg e cursor) (voices, frames, segStart)).2.1.length : ℤ)
          = (bins.foldl (blockStep cfg e cursor) (voices, frames, segStart)).2.2 := by
  intro bins
  induction bins with
  | nil => intro _ _ _ h0 h1 h2 _; exact ⟨h0, h1, h2⟩
  | cons b bins ih =>
    intro voices frames segStart h0 h1 h2 hb
    have hblt : b.1 - cursor < cfg.bufferSize := hb b (by simp)
    rw [List.foldl_cons]
    by_cases hseg : 0 < b.1 - cursor - segStart
    · have hstep : blockStep cfg e cursor (voices, frames, segStart) b
          = (processBin cfg.mode cfg.isUsingAdsr b.1 b.2
              (renderSegment e voices (b.1 - cursor - segStart)).2,
             frames ++ (renderSegment e voices (b.1 - cursor - segStart)).1,
             b.1 - cursor) := by
        simp only [blockStep, if_pos hseg]
      rw [hstep]
      apply ih
      · omega
      · omega
      · have := renderSegment_length e voices (b.1 - cursor - segStart) hseg
        simp only [List.length_append]
        push_cast
        omega
      · intro b2 hb2
        exact hb b2 (by simp [hb2])
    · have hstep : blockStep cfg e cursor (voices, frames, segStart) b
          = (processBin cfg.mode cfg.isUsingAdsr b.1 b.2 voices, frames, segStart) := by
        simp only [blockStep, if_neg hseg]
      rw [hstep]
      apply ih _ frames segStart h0 h1 h2
      intro b2 hb2
      exact hb b2 (by simp [hb2])

/-- Every rendered block holds exactly `buffer_size` frames (for a
non-negative `buffer_size`, and bins all inside the block). -/
theorem renderBlock_length {S C : Type} [HasNoteId S] (cfg : RenderCfg) (e : ℚ → ℚ)
    (cursor : ℤ) (blockBins : List (ℤ × EventBin S)) (voices : List (Voice S C))
    (hB : 0 ≤ cfg.bufferSize)
    (hb : ∀ b ∈ blockBins, b.1 - cursor < cfg.bufferSize) :
    ((renderBlock cfg e cursor blockBins voices).1.length : ℤ) = cfg.bufferSize := by
  obtain ⟨h0, h1, h2⟩ := blockFold_length cfg e cursor blockBins voices [] 0 le_rfl hB
    (by simp) hb
  rw [renderBlock]
  split
  · next hrem =>
      simp only [List.length_append]
      have := renderSegment_length e
        (blockBins.foldl (blockStep cfg e cursor) (voices, [], 0)).1
        (cfg.bufferSize - (blockBins.foldl (blockStep cfg e cursor) (voices, [], 0)).2.2)
        hrem
      push_cast
      omega
  · next hrem =>
      dsimp only
      omega

/-- The bins extracted for a block all lie before the block end. -/
theorem span_mem_lt {S : Type} (remaining : List (ℤ × EventBin S)) (c : ℤ)
    (b : ℤ × EventBin S)
    (hb : b ∈ (remaining.span (fun p => decide (p.1 < c))).1) : b.1 < c := by
  rw [List.span_eq_take_drop] at hb
  simpa using List.mem_takeWhile_imp hb

/-- Each iteration yields a block of exactly `buffer_size` frames. -/
theorem renderIter_block_length {S C : Type} [HasNoteId S] (cfg : RenderCfg) (e : ℚ → ℚ)
    (st : LoopState S C) (hB : 0 ≤ cfg.bufferSize) :
    (((renderIter cfg e st).2.1).length : ℤ) = cfg.bufferSize := by
  rw [renderIter]
  apply renderBlock_length _ _ _ _ _ hB
  intro b hb
  have := span_mem_lt st.remaining
    ((st.num_processed_blocks : ℤ) * cfg.bufferSize + cfg.bufferSize) b hb
  omega

/-- All blocks of a fueled loop have length `buffer_size`. -/
theorem renderLoop_block_length {S C : Type} [HasNoteId S] (cfg : RenderCfg) (e : ℚ → ℚ)
    (hB : 0 ≤ cfg.bufferSize) :
    ∀ (fuel : ℕ) (st : LoopState S C) (bl : List (ℚ × ℚ)),
      bl ∈ (renderLoop cfg e fuel st).1 → (bl.length : ℤ) = cfg.bufferSize := by
  intro fuel
  induction fuel with
  | zero => intro st bl h; simp [renderLoop] at h
  | succ fuel ih =>
    intro st bl h
    simp only [renderLoop] at h
    split at h
    · split at h
      · simp only [List.mem_singleton] at h
        subst h
        exact renderIter_block_length cfg e st hB
      · simp only [List.mem_cons] at h
        rcases h with h | h
        · subst h
          exact renderIter_block_length cfg e st hB
        · exact ih _ bl h
    · simp at h

/-- C6: every block yielded by `EventScheduler.render` has length exactly
`block_size`: the sub-segments cut at bin offsets plus the final sub-segment
always add up to `block_size`, whatever bins fall inside the block and
whatever the voices produce. -/
theorem render_block_length {S C : Type} [HasNoteId S] (s : EventScheduler S C)
    (e : ℚ → ℚ) (amp tail : ℚ) (hB : 0 ≤ s.buffer_size) :
    ∀ bl ∈ (s.render e amp tail).1, (bl.length : ℤ) = s.buffer_size := by
  intro bl h
  rw [EventScheduler.render] at h
  split at h
  · simp at h
  · split at h
    · simp at h
    · exact renderLoop_block_length _ _ hB _ _ bl h

/-- The stop flag computed after yielding a block, as a proposition: the
block end must be past the last event index, and then either it is also past
`last_note_off + max_tail_samples` (regardless of running voices or
loudness), or no bins remain and (no voice is running, or the block is
entirely below the silence threshold). -/
theorem renderIter_stop_eq {S C : Type} [HasNoteId S] (cfg : RenderCfg) (e : ℚ → ℚ)
    (st : LoopState S C) :
    (renderIter cfg e st).2.2 = true ↔
      ((cfg.lastEvent ≤ (st.num_processed_blocks : ℤ) * cfg.bufferSize + cfg.bufferSize
          ∧ cfg.lastNoteOff + cfg.maxSamples
              ≤ (st.num_processed_blocks : ℤ) * cfg.bufferSize + cfg.bufferSize)
        ∨ (cfg.lastEvent ≤ (st.num_processed_blocks : ℤ) * cfg.bufferSize + cfg.bufferSize
            ∧ (renderIter cfg e st).1.remaining = []
            ∧ ((∀ v ∈ (renderIter cfg e st).1.voices, v.running = false)
              ∨ ∀ f ∈ (renderIter cfg e st).2.1,
                  |f.1| ≤ cfg.silenceAmplitude ∧ |f.2| ≤ cfg.silenceAmplitude))) := by
  show (_ || _) = true ↔ _
  simp only [Bool.or_eq_true, Bool.and_eq_true, decide_eq_true_eq, List.all_eq_true,
    List.any_eq_true, List.isEmpty_iff, Bool.not_eq_true', List.any_eq_false,
    Bool.and_eq_false_iff]
  constructor
  · rintro (⟨h1, h2⟩ | ⟨⟨h1, h2⟩, h3⟩)
    · exact Or.inl ⟨h1, h2⟩
    · refine Or.inr ⟨h1, h2, ?_⟩
      rcases h3 with h3 | h3
      · exact Or.inl (fun v hv => Bool.eq_false_iff.mpr (h3 v hv))
      · refine Or.inr (fun f hf => ?_)
        have := h3 f hf
        simpa [Bool.and_eq_true, decide_eq_true_eq] using this
  · rintro (⟨h1, h2⟩ | ⟨h1, h2, h3⟩)
    · exact Or.inl ⟨h1, h2⟩
    · refine Or.inr ⟨⟨h1, h2⟩, ?_⟩
      rcases h3 with h3 | h3
      · exact Or.inl (fun v hv => Bool.eq_false_iff.mp (h3 v hv))
      · refine Or.inr (fun f hf => ?_)
        simpa [Bool.and_eq_true, decide_eq_true_eq] using h3 f hf

/-- The new block counter after an iteration. -/
theorem renderIter_npb {S C : Type} [HasNoteId S] (cfg : RenderCfg) (e : ℚ → ℚ)
    (st : LoopState S C) :
    (renderIter cfg e st).1.num_processed_blocks = st.num_processed_blocks + 1 := rfl

/-- Once the block end passes `max(last_event, last_note_off + max_tail)`,
the loop stops; with enough fuel, the loop therefore finishes and yields at
most `fuel` blocks. -/
theorem renderLoop_finishes {S C : Type} [HasNoteId S] (cfg : RenderCfg) (e : ℚ → ℚ) :
    ∀ (fuel : ℕ) (st : LoopState S C),
      1 ≤ fuel →
      max cfg.lastEvent (cfg.lastNoteOff + cfg.maxSamples)
        ≤ ((st.num_processed_blocks : ℤ) + fuel) * cfg.bufferSize →
      (renderLoop cfg e fuel st).2.2 = true
      ∧ (renderLoop cfg e fuel st).1.length ≤ fuel := by
  intro fuel
  induction fuel with
  | zero => intro st h _; omega
  | succ fuel ih =>
    intro st _ hK
    simp only [renderLoop]
    split
    · by_cases hstop : (renderIter cfg e st).2.2 = true
      · simp [hstop]
      · have hmul : ((st.num_processed_blocks : ℤ) + 1) * cfg.bufferSize
            = (st.num_processed_blocks : ℤ) * cfg.bufferSize + cfg.bufferSize := by ring
        have hne : ((st.num_processed_blocks : ℤ) + 1) * cfg.bufferSize
            < max cfg.lastEvent (cfg.lastNoteOff + cfg.maxSamples) := by
          by_contra hcon
          push_neg at hcon
          apply hstop
          rw [renderIter_stop_eq]
          left
          constructor
          · have h1 := le_max_left cfg.lastEvent (cfg.lastNoteOff + cfg.maxSamples)
            linarith [hmul]
          · have h2 := le_max_right cfg.lastEvent (cfg.lastNoteOff + cfg.maxSamples)
            linarith [hmul]
        have hfuel1 : 1 ≤ fuel := by
          rcases Nat.eq_zero_or_pos fuel with h0 | h1
          · exfalso
            subst h0
            push_cast at hK
            linarith [hne, hK]
          · exact h1
        have hK2 : max cfg.lastEvent (cfg.lastNoteOff + cfg.maxSamples)
            ≤ (((renderIter cfg e st).1.num_processed_blocks : ℤ) + fuel) * cfg.bufferSize := by
          rw [renderIter_npb]
          push_cast at hK ⊢
          have : ((st.num_processed_blocks : ℤ) + 1 + fuel) * cfg.bufferSize
              = ((st.num_processed_blocks : ℤ) + (fuel + 1)) * cfg.bufferSize := by ring
          linarith [this, hK]
        have hrec := ih (renderIter cfg e st).1 hfuel1 hK2
        simp only [hstop, if_false, Bool.false_eq_true]
        refine ⟨hrec.1, ?_⟩
        simpa using Nat.succ_le_succ hrec.2
    · simp

/-- More fuel does not change a finished run. -/
theorem renderLoop_mono {S C : Type} [HasNoteId S] (cfg : RenderCfg) (e : ℚ → ℚ) :
    ∀ (fuel fuel' : ℕ) (st : LoopState S C),
      (renderLoop cfg e fuel st).2.2 = true → fuel ≤ fuel' →
      renderLoop cfg e fuel' st = renderLoop cfg e fuel st := by
  intro fuel
  induction fuel with
  | zero => intro fuel' st h _; simp [renderLoop] at h
  | succ fuel ih =>
    intro fuel' st hfin hle
    obtain ⟨fuel2, rfl⟩ : ∃ k, fuel' = k + 1 := ⟨fuel' - 1, by omega⟩
    simp only [renderLoop] at hfin ⊢
    by_cases hw : whileCond st = true
    · simp only [hw, if_true] at hfin ⊢
      by_cases hs : (renderIter cfg e st).2.2 = true
      · simp only [hs, if_true] at hfin ⊢
      · simp only [hs, if_false, Bool.false_eq_true] at hfin ⊢
        have hfin2 : (renderLoop cfg e fuel (renderIter cfg e st).1).2.2 = true := hfin
        rw [ih fuel2 (renderIter cfg e st).1 hfin2 (by omega)]
    · simp only [hw, if_false, Bool.false_eq_true]

/-- C2 counterexample: on the schedule with one note (NOTE_ON at sample 0,
NOTE_OFF at sample 4, SR = 8, block_size = 8, no envelope, default -60 dB and
4 s tail), rendering halts after its single block, although the cumulative
output past the last NOTE_OFF is 8·1 − 4 = 4 frames, far below
`max_seconds_after_last_note_off · sample_rate = 32`, and the produced block
is not entirely below the silence threshold (its first four frames are 1/2).
So the loop does not terminate "only when ... either the tail budget is
exceeded or the last block is silent". -/
theorem render_termination_cex :
    (cexSched.render (fun _ => 1) (1/1000) 4).2.2 = true
    ∧ (cexSched.render (fun _ => 1) (1/1000) 4).1
        = [[(1/2, 1/2), (1/2, 1/2), (1/2, 1/2), (1/2, 1/2), (0, 0), (0, 0), (0, 0), (0, 0)]]
    ∧ lastNoteOffIndex (sortedSimplifiedBins cexSched) = some 4
    ∧ intTrunc (4 * (cexSched.sample_rate : ℚ)) = 32
    ∧ ¬((4 : ℤ) + 32 ≤ 8 * 1)
    ∧ ¬(|(1/2 : ℚ)| ≤ 1/1000) :=
  ⟨by decide, by decide, by decide, by decide, by decide, by decide⟩

/-- With the fuel `render` supplies, the loop finishes and its total output
stays within one block of `max(last_event, last_note_off + max_tail)`. -/
theorem renderLoop_finishes_bound {S C : Type} [HasNoteId S] (cfg : RenderCfg) (e : ℚ → ℚ)
    (hB : 0 < cfg.bufferSize) (st : LoopState S C) (h0 : st.num_processed_blocks = 0)
    (fuel : ℕ)
    (hfuel : (max cfg.lastEvent (cfg.lastNoteOff + cfg.maxSamples)).toNat + 2 ≤ fuel) :
    (renderLoop cfg e fuel st).2.2 = true
    ∧ ((renderLoop cfg e fuel st).1.length : ℤ) * cfg.bufferSize
        ≤ max (max cfg.lastEvent (cfg.lastNoteOff + cfg.maxSamples)) 0 + cfg.bufferSize := by
  set K := max cfg.lastEvent (cfg.lastNoteOff + cfg.maxSamples) with hK
  set d : ℤ := K / cfg.bufferSize with hd
  have hlt : K < (d + 1) * cfg.bufferSize := Int.lt_ediv_add_one_mul_self K hB
  have hdle : (d : ℤ) ≤ (d.toNat : ℤ) := Int.self_le_toNat d
  have hK0 : K ≤ ((st.num_processed_blocks : ℤ) + ((d.toNat + 1 : ℕ) : ℤ))
      * cfg.bufferSize := by
    have h1 : (d + 1) * cfg.bufferSize ≤ ((d.toNat : ℤ) + 1) * cfg.bufferSize :=
      mul_le_mul_of_nonneg_right (by omega) hB.le
    have h2 : ((st.num_processed_blocks : ℤ) + ((d.toNat + 1 : ℕ) : ℤ)) * cfg.bufferSize
        = ((d.toNat : ℤ) + 1) * cfg.bufferSize := by
      rw [h0]
      push_cast
      ring
    rw [h2]
    linarith
  have hdn : d.toNat ≤ K.toNat + 1 := by
    rcases le_or_lt 0 K with hKp | hKn
    · have h1 : d ≤ K := by rw [hd]; exact Int.ediv_le_self _ hKp
      have := Int.toNat_le_toNat h1
      omega
    · have h1 : d ≤ 0 := by
        rw [hd]
        calc K / cfg.bufferSize ≤ 0 / cfg.bufferSize := Int.ediv_le_ediv hB hKn.le
        _ = 0 := Int.zero_ediv _
      have : d.toNat = 0 := by omega
      omega
  have hmain := renderLoop_finishes cfg e (d.toNat + 1) st (by omega) hK0
  have hmono := renderLoop_mono cfg e (d.toNat + 1) fuel st hmain.1 (by omega)
  rw [hmono]
  refine ⟨hmain.1, ?_⟩
  have hlenZ : ((renderLoop cfg e (d.toNat + 1) st).1.length : ℤ) ≤ ((d.toNat + 1 : ℕ) : ℤ) := by
    exact_mod_cast hmain.2
  have hmul := mul_le_mul_of_nonneg_right hlenZ hB.le
  have hfin : ((d.toNat + 1 : ℕ) : ℤ) * cfg.bufferSize ≤ max K 0 + cfg.bufferSize := by
    have hexp : ((d.toNat + 1 : ℕ) : ℤ) * cfg.bufferSize
        = (d.toNat : ℤ) * cfg.bufferSize + cfg.bufferSize := by
      push_cast
      ring
    have hdb : (d.toNat : ℤ) * cfg.bufferSize ≤ max K 0 := by
      rcases le_or_lt 0 K with hKp | hKn
      · have hd0 : (0 : ℤ) ≤ d := by
          rw [hd]; exact Int.ediv_nonneg hKp hB.le
        have hdt : (d.toNat : ℤ) = d := Int.toNat_of_nonneg hd0
        rw [hdt]
        calc d * cfg.bufferSize ≤ K := by
              rw [hd]; exact Int.ediv_mul_le _ (by omega)
        _ ≤ max K 0 := le_max_left _ _
      · have h1 : d ≤ 0 := by
          rw [hd]
          calc K / cfg.bufferSize ≤ 0 / cfg.bufferSize := Int.ediv_le_ediv hB hKn.le
          _ = 0 := Int.zero_ediv _
        have hdt : d.toNat = 0 := by omega
        rw [hdt]
        simp
    omega
  linarith

/-- C2 (amended): the loop always halts — no later than the first block
boundary at or past `max(last_event_index, last_note_off_index +
max_tail_samples)`, so the total output is at most that target plus one
block; and the stop decision taken after yielding a block is: block end past
the last event index AND (past `last_note_off + max_tail_samples` — even
with voices still running — OR no bins remain and (no voice runs or the
block is entirely below the silence threshold)). -/
theorem render_termination_spec {S C : Type} [HasNoteId S] (s : EventScheduler S C)
    (e : ℚ → ℚ) (amp tailS : ℚ) (hB : 0 < s.buffer_size) :
    ((s.render e amp tailS).2.2 = true
      ∧ ((s.render e amp tailS).1.length : ℤ) * s.buffer_size
          ≤ max (renderStopTarget s tailS) 0 + s.buffer_size)
    ∧ (∀ (cfg : RenderCfg) (st : LoopState S C),
        (renderIter cfg e st).2.2 = true ↔
          ((cfg.lastEvent ≤ (st.num_processed_blocks : ℤ) * cfg.bufferSize + cfg.bufferSize
              ∧ cfg.lastNoteOff + cfg.maxSamples
                  ≤ (st.num_processed_blocks : ℤ) * cfg.bufferSize + cfg.bufferSize)
            ∨ (cfg.lastEvent ≤ (st.num_processed_blocks : ℤ) * cfg.bufferSize + cfg.bufferSize
                ∧ (renderIter cfg e st).1.remaining = []
                ∧ ((∀ v ∈ (renderIter cfg e st).1.voices, v.running = false)
                  ∨ ∀ f ∈ (renderIter cfg e st).2.1,
                      |f.1| ≤ cfg.silenceAmplitude ∧ |f.2| ≤ cfg.silenceAmplitude)))) := by
  refine ⟨?_, fun cfg st => renderIter_stop_eq cfg e st⟩
  have hmax0 : (0 : ℤ) ≤ max (renderStopTarget s tailS) 0 := le_max_right _ _
  rw [EventScheduler.render]
  split
  · exact ⟨rfl, by simpa using by linarith⟩
  · split
    · exact ⟨rfl, by simpa using by linarith⟩
    · next lo heq =>
        dsimp only
        have hKrst : renderStopTarget s tailS
            = max (maxKeyD (sortedSimplifiedBins s))
                (lo + intTrunc (tailS * (s.sample_rate : ℚ))) := by
          rw [renderStopTarget, heq]
          rfl
        have h := renderLoop_finishes_bound
          { bufferSize := s.buffer_size
            mode := s.retrigger_mode
            isUsingAdsr := s.is_using_adsr
            silenceAmplitude := amp
            lastEvent := maxKeyD (sortedSimplifiedBins s)
            lastNoteOff := lo
            maxSamples := intTrunc (tailS * (s.sample_rate : ℚ)) } e hB
          { voices := s.voices
            remaining := sortedSimplifiedBins s
            block_frames := none
            num_processed_blocks := 0 }
          rfl
          ((max (maxKeyD (sortedSimplifiedBins s))
            (lo + intTrunc (tailS * (s.sample_rate : ℚ)))).toNat + 2)
          le_rfl
        rw [hKrst]
        exact h

/-- Witness for C2's amended theorem on the concrete one-note schedule. -/
theorem render_termination_spec_witness :
    (0 : ℤ) < cexSched.buffer_size
    ∧ ((cexSched.render (fun _ => 1) (1/1000) 4).2.2 = true
      ∧ ((cexSched.render (fun _ => 1) (1/1000) 4).1.length : ℤ) * cexSched.buffer_size
          ≤ max (renderStopTarget cexSched 4) 0 + cexSched.buffer_size) :=
  ⟨by decide,
   (render_termination_spec cexSched (fun _ => 1) (1/1000) 4 (by decide)).1⟩

/-- C5: retrigger-mode behavior on a NOTE_ON whose id matches a running
voice.  ALLOW_TAILS never looks for a match: a fresh voice is allocated or
stolen (and hard-reset).  CUT_TAILS reuses the matched voice with a hard
reset: envelope `reset` then `note_on`, generator state assigned, generator
`reset` (counter back to 0).  ATTACK_FROM_CURRENT_LEVEL with an envelope
reuses the matched voice with a soft reset: envelope `note_on` only (no
envelope reset), generator state assigned but not reset (counter unchanged).
ATTACK_FROM_CURRENT_LEVEL without an envelope behaves exactly as CUT_TAILS. -/
theorem retrigger_mode_spec {S C : Type} [HasNoteId S] (is_using_adsr : Bool)
    (voices : List (Voice S C)) (bin_index noteId : ℤ) (data : S) (i : ℕ) (v : Voice S C) :
    (handleEvent RetriggerMode.ALLOW_TAILS is_using_adsr bin_index noteId
        { kind := EventKind.NOTE_ON, data := data } voices
      = (match getOrStealVoiceIdx is_using_adsr voices with
         | some k => listModify voices k
             (fun w => w.note_on noteId data (some bin_index) true true true)
         | none => voices))
    ∧ (findRetriggerIdx noteId voices = some i → voices.get? i = some v →
        (handleEvent RetriggerMode.CUT_TAILS is_using_adsr bin_index noteId
            { kind := EventKind.NOTE_ON, data := data } voices
          = voices.set i (v.note_on noteId data (some bin_index) true true true))
        ∧ (v.note_on noteId data (some bin_index) true true true).adsr
            = v.adsr.map (fun a => a.reset.note_on)
        ∧ (v.note_on noteId data (some bin_index) true true true).synth
            = (v.synth.set_state data).reset
        ∧ (v.note_on noteId data (some bin_index) true true true).synth.n = 0)
    ∧ (findRetriggerIdx noteId voices = some i → voices.get? i = some v →
        (handleEvent RetriggerMode.ATTACK_FROM_CURRENT_LEVEL true bin_index noteId
            { kind := EventKind.NOTE_ON, data := data } voices
          = voices.set i (v.note_on noteId data (some bin_index) false false true))
        ∧ (v.note_on noteId data (some bin_index) false false true).adsr
            = v.adsr.map ExpADSR.note_on
        ∧ (v.note_on noteId data (some bin_index) false false true).synth
            = v.synth.set_state data
        ∧ (v.note_on noteId data (some bin_index) false false true).synth.n = v.synth.n)
    ∧ handleEvent RetriggerMode.ATTACK_FROM_CURRENT_LEVEL false bin_index noteId
        { kind := EventKind.NOTE_ON, data := data } voices
      = handleEvent RetriggerMode.CUT_TAILS false bin_index noteId
        { kind := EventKind.NOTE_ON, data := data } voices := by
  refine ⟨?_, ?_, ?_, ?_⟩
  · rfl
  · intro h1 h2
    refine ⟨?_, ?_, rfl, rfl⟩
    · have hr : (if RetriggerMode.CUT_TAILS ≠ RetriggerMode.ALLOW_TAILS then
          findRetriggerIdx noteId voices else none) = some i := by
        rw [if_pos (by decide)]
        exact h1
      simp only [handleEvent, hr, listModify, h2]
      split
      · next hcond => exact absurd hcond.1 (by decide)
      · rfl
    · simp only [Voice.note_on, if_true]
  · intro h1 h2
    refine ⟨?_, ?_, rfl, rfl⟩
    · have hr : (if RetriggerMode.ATTACK_FROM_CURRENT_LEVEL ≠ RetriggerMode.ALLOW_TAILS then
          findRetriggerIdx noteId voices else none) = some i := by
        rw [if_pos (by decide)]
        exact h1
      simp only [handleEvent, hr, listModify, h2]
      split
      · rfl
      · next hcond => exact absurd ⟨trivial, trivial⟩ hcond
    · simp only [Voice.note_on]
      rfl
  · cases hfr : findRetriggerIdx noteId voices <;>
      simp [handleEvent, hfr]

/-- Witness for C5 at a concrete matched pool. -/
theorem retrigger_mode_spec_witness :
    findRetriggerIdx 5 [runningVoice] = some 0
    ∧ [runningVoice].get? 0 = some runningVoice
    ∧ handleEvent RetriggerMode.CUT_TAILS false 0 5
        { kind := EventKind.NOTE_ON, data := (5 : ℤ) } [runningVoice]
      = [runningVoice].set 0 (runningVoice.note_on 5 5 (some 0) true true true) := by
  refine ⟨by decide, rfl, ?_⟩
  exact ((retrigger_mode_spec false [runningVoice] 0 5 (5 : ℤ) 0 runningVoice).2.1
    (by decide) rfl).1

/-- Witness for C6 on a concrete schedule. -/
theorem render_block_length_witness :
    (0 : ℤ) ≤ cexSched.buffer_size
    ∧ ∀ bl ∈ (cexSched.render (fun _ => 1) (1/1000) 4).1,
        (bl.length : ℤ) = cexSched.buffer_size :=
  ⟨by decide, render_block_length cexSched (fun _ => 1) (1/1000) 4 (by decide)⟩

/-- `firstMinBy` returns something exactly on nonempty lists. -/
theorem firstMinBy_eq_none_iff {α : Type} (key : α → ℤ) (l : List α) :
    firstMinBy key l = none ↔ l = [] := by
  cases l with
  | nil => simp [firstMinBy]
  | cons a t =>
    constructor
    · intro h
      exfalso
      simp only [firstMinBy] at h
      cases hft : firstMinBy key t with
      | none =>
        rw [hft] at h
        exact Option.noConfusion h
      | some b =>
        rw [hft] at h
        dsimp only at h
        by_cases hlt : key b < key a
        · rw [if_pos hlt] at h
          exact Option.noConfusion h
        · rw [if_neg hlt] at h
          exact Option.noConfusion h
    · intro h
      exact absurd h (by simp)

/-- The head of the stable sort is the first element attaining the minimal
key. -/
theorem head?_insertionSortLe {α : Type} (key : α → ℤ) (l : List α) :
    (insertionSortLe (fun p q => decide (key p ≤ key q)) l).head? = firstMinBy key l := by
  induction l with
  | nil => rfl
  | cons a t ih =>
    simp only [insertionSortLe, firstMinBy]
    cases hs : insertionSortLe (fun p q => decide (key p ≤ key q)) t with
    | nil =>
      have hnil : firstMinBy key t = none := by rw [← ih, hs]; rfl
      rw [hnil]
      simp [orderedInsertLe]
    | cons b s =>
      have hb : firstMinBy key t = some b := by rw [← ih, hs]; rfl
      rw [hb]
      simp only [orderedInsertLe]
      by_cases hle : key a ≤ key b
      · rw [if_pos (by simpa using hle), if_neg (by omega)]
        rfl
      · rw [if_neg (by simpa using hle), if_pos (by omega)]
        rfl

/-- On a list of index-value pairs with strictly increasing indices,
`firstMinBy` picks a member of minimal key, and any member that ties on the
key sits at the same or a later index. -/
theorem firstMinBy_pairs_spec {β : Type} (key : β → ℤ) :
    ∀ (l : List (ℕ × β)) (m : ℕ × β),
      l.Pairwise (fun p q => p.1 < q.1) →
      firstMinBy (fun p => key p.2) l = some m →
      m ∈ l ∧ (∀ p ∈ l, key m.2 ≤ key p.2)
        ∧ (∀ p ∈ l, key p.2 = key m.2 → m.1 ≤ p.1) := by
  intro l
  induction l with
  | nil => intro m _ h; exact Option.noConfusion h
  | cons a t ih =>
    intro m hpw hf
    have hpw1 := List.pairwise_cons.mp hpw
    simp only [firstMinBy] at hf
    cases hft : firstMinBy (fun p => key p.2) t with
    | none =>
      rw [hft] at hf
      dsimp only at hf
      cases hf
      have ht : t = [] := (firstMinBy_eq_none_iff _ _).mp hft
      subst ht
      refine ⟨List.mem_singleton_self a, ?_, ?_⟩
      · intro p hp
        rw [List.mem_singleton.mp hp]
      · intro p hp _
        rw [List.mem_singleton.mp hp]
    | some b =>
      rw [hft] at hf
      dsimp only at hf
      obtain ⟨hbmem, hbmin, hbtie⟩ := ih b hpw1.2 hft
      by_cases hlt : key b.2 < key a.2
      · rw [if_pos hlt] at hf
        cases hf
        refine ⟨List.mem_cons_of_mem a hbmem, ?_, ?_⟩
        · intro p hp
          rcases List.mem_cons.mp hp with hp | hp
          · rw [hp]; omega
          · exact hbmin p hp
        · intro p hp hkey
          rcases List.mem_cons.mp hp with hp | hp
          · rw [hp] at hkey
            omega
          · exact hbtie p hp hkey
      · rw [if_neg hlt] at hf
        cases hf
        refine ⟨List.mem_cons_self a t, ?_, ?_⟩
        · intro p hp
          rcases List.mem_cons.mp hp with hp | hp
          · rw [hp]
          · exact le_trans (by omega) (hbmin p hp)
        · intro p hp _
          rcases List.mem_cons.mp hp with hp | hp
          · rw [hp]
          · exact (hpw1.1 p hp).le

/-- `enum` carries strictly increasing indices. -/
theorem enum_pairwise {α : Type} (l : List α) :
    l.enum.Pairwise (fun p q => p.1 < q.1) := by
  have h1 : (l.enum.map Prod.fst).Pairwise (· < ·) := by
    rw [List.enum_map_fst]
    exact List.pairwise_lt_range _
  exact List.pairwise_map.mp h1

/-- An enum pair indexes its value. -/
theorem enum_get? {α : Type} {l : List α} {p : ℕ × α} (h : p ∈ l.enum) :
    l.get? p.1 = some p.2 := by
  have h2 : (p.1, p.2) ∈ l.enum := by simpa using h
  have h3 := List.mk_mem_enum_iff_getElem?.mp h2
  simpa [List.get?_eq_getElem?] using h3

/-- Conversely, an indexed value is an enum pair. -/
theorem get?_enum {α : Type} {l : List α} {i : ℕ} {x : α} (h : l.get? i = some x) :
    (i, x) ∈ l.enum := by
  apply List.mk_mem_enum_iff_getElem?.mpr
  simpa [List.get?_eq_getElem?] using h

/-- Every member appears in the enumeration. -/
theorem mem_exists_enum {α : Type} {l : List α} {x : α} (h : x ∈ l) :
    ∃ i, (i, x) ∈ l.enum := by
  obtain ⟨i, hi⟩ := List.get_of_mem h
  exact ⟨i.1, List.mk_mem_enum_iff_getElem?.mpr (by simp [← hi])⟩

/-- C1: voice stealing when no voice is free.  Without an envelope the stolen
voice has the earliest `last_note_on_sample_index`; with an envelope, if some
voice is in RELEASE the stolen voice is in RELEASE with the earliest
`last_note_off_sample_index` (among RELEASE voices), otherwise the earliest
`last_note_on_sample_index`; all ties resolve to the smallest pool index. -/
theorem steal_policy {S C : Type} (is_using_adsr : Bool) (voices : List (Voice S C))
    (hne : voices.length ≠ 0)
    (hrun : ∀ v ∈ voices, v.running = true) :
    ∃ j v, getOrStealVoiceIdx is_using_adsr voices = some j
      ∧ voices.get? j = some v
      ∧ (is_using_adsr = false →
          (∀ w ∈ voices, v.last_note_on_sample_index ≤ w.last_note_on_sample_index)
          ∧ (∀ (k : ℕ) (w : Voice S C), voices.get? k = some w →
              w.last_note_on_sample_index = v.last_note_on_sample_index → j ≤ k))
      ∧ (is_using_adsr = true →
          (∃ w ∈ voices, w.get_adsr_stage = some ADSRStage.RELEASE) →
          v.get_adsr_stage = some ADSRStage.RELEASE
          ∧ (∀ w ∈ voices, w.get_adsr_stage = some ADSRStage.RELEASE →
              v.last_note_off_sample_index ≤ w.last_note_off_sample_index)
          ∧ (∀ (k : ℕ) (w : Voice S C), voices.get? k = some w →
              w.get_adsr_stage = some ADSRStage.RELEASE →
              w.last_note_off_sample_index = v.last_note_off_sample_index → j ≤ k))
      ∧ (is_using_adsr = true →
          (∀ w ∈ voices, ¬ w.get_adsr_stage = some ADSRStage.RELEASE) →
          (∀ w ∈ voices, v.last_note_on_sample_index ≤ w.last_note_on_sample_index)
          ∧ (∀ (k : ℕ) (w : Voice S C), voices.get? k = some w →
              w.last_note_on_sample_index = v.last_note_on_sample_index → j ≤ k)) := by
  have hfree : voices.enum.find? (fun p => !p.2.running) = none := by
    rw [List.find?_eq_none]
    intro p hp
    have hv : p.2 ∈ voices := List.get?_mem (enum_get? hp)
    simp [hrun p.2 hv]
  have henne : voices.enum ≠ [] := by
    intro hc
    apply hne
    have := congrArg List.length hc
    simpa using this
  cases is_using_adsr with
  | false =>
    have hform : getOrStealVoiceIdx false voices
        = ((insertionSortLe (fun p q =>
            decide (p.2.last_note_on_sample_index ≤ q.2.last_note_on_sample_index))
            voices.enum).head?).map Prod.fst := by
      simp [getOrStealVoiceIdx, hfree]
    rw [head?_insertionSortLe
      (fun p : ℕ × Voice S C => p.2.last_note_on_sample_index)] at hform
    obtain ⟨m, hm⟩ : ∃ m, firstMinBy
        (fun p : ℕ × Voice S C => p.2.last_note_on_sample_index) voices.enum = some m := by
      cases hfm : firstMinBy
          (fun p : ℕ × Voice S C => p.2.last_note_on_sample_index) voices.enum with
      | none => exact absurd ((firstMinBy_eq_none_iff _ _).mp hfm) henne
      | some m => exact ⟨m, rfl⟩
    obtain ⟨hmem, hmin, htie⟩ := firstMinBy_pairs_spec _ voices.enum m (enum_pairwise _) hm
    refine ⟨m.1, m.2, ?_, enum_get? hmem, ?_, ?_, ?_⟩
    · rw [hform, hm]
      rfl
    · intro _
      refine ⟨?_, ?_⟩
      · intro w hw
        obtain ⟨i, hi⟩ := mem_exists_enum hw
        exact hmin (i, w) hi
      · intro k w hk hkey
        exact htie (k, w) (get?_enum hk) hkey
    · intro hc
      exact absurd hc (by simp)
    · intro hc
      exact absurd hc (by simp)
  | true =>
    by_cases hrel : (voices.enum.filter
        (fun p => decide (p.2.get_adsr_stage = some ADSRStage.RELEASE))).isEmpty
    · have hform : getOrStealVoiceIdx true voices
          = ((insertionSortLe (fun p q =>
              decide (p.2.last_note_on_sample_index ≤ q.2.last_note_on_sample_index))
              voices.enum).head?).map Prod.fst := by
        simp [getOrStealVoiceIdx, hfree, hrel]
      rw [head?_insertionSortLe
        (fun p : ℕ × Voice S C => p.2.last_note_on_sample_index)] at hform
      obtain ⟨m, hm⟩ : ∃ m, firstMinBy
          (fun p : ℕ × Voice S C => p.2.last_note_on_sample_index) voices.enum = some m := by
        cases hfm : firstMinBy
            (fun p : ℕ × Voice S C => p.2.last_note_on_sample_index) voices.enum with
        | none => exact absurd ((firstMinBy_eq_none_iff _ _).mp hfm) henne
        | some m => exact ⟨m, rfl⟩
      obtain ⟨hmem, hmin, htie⟩ := firstMinBy_pairs_spec _ voices.enum m (enum_pairwise _) hm
      have hempty : (voices.enum.filter
          (fun p => decide (p.2.get_adsr_stage = some ADSRStage.RELEASE))) = [] := by
        simpa [List.isEmpty_iff] using hrel
      refine ⟨m.1, m.2, ?_, enum_get? hmem, ?_, ?_, ?_⟩
      · rw [hform, hm]
        rfl
      · intro hc
        exact absurd hc (by simp)
      · intro _ hex
        exfalso
        obtain ⟨w, hw, hstw⟩ := hex
        obtain ⟨i, hi⟩ := mem_exists_enum hw
        have : (i, w) ∈ (voices.enum.filter
            (fun p => decide (p.2.get_adsr_stage = some ADSRStage.RELEASE))) :=
          List.mem_filter.mpr ⟨hi, by simpa using hstw⟩
        rw [hempty] at this
        exact List.not_mem_nil _ this
      · intro _ _
        refine ⟨?_, ?_⟩
        · intro w hw
          obtain ⟨i, hi⟩ := mem_exists_enum hw
          exact hmin (i, w) hi
        · intro k w hk hkey
          exact htie (k, w) (get?_enum hk) hkey
    · have hform : getOrStealVoiceIdx true voices
          = ((insertionSortLe (fun p q =>
              decide (p.2.last_note_off_sample_index ≤ q.2.last_note_off_sample_index))
              (voices.enum.filter
                (fun p => decide (p.2.get_adsr_stage = some ADSRStage.RELEASE)))).head?).map
            Prod.fst := by
        simp [getOrStealVoiceIdx, hfree, hrel]
      rw [head?_insertionSortLe
        (fun p : ℕ × Voice S C => p.2.last_note_off_sample_index)] at hform
      have hflne : (voices.enum.filter
          (fun p => decide (p.2.get_adsr_stage = some ADSRStage.RELEASE))) ≠ [] := by
        intro hc
        rw [hc] at hrel
        exact hrel rfl
      obtain ⟨m, hm⟩ : ∃ m, firstMinBy
          (fun p : ℕ × Voice S C => p.2.last_note_off_sample_index)
          (voices.enum.filter
            (fun p => decide (p.2.get_adsr_stage = some ADSRStage.RELEASE))) = some m := by
        cases hfm : firstMinBy
            (fun p : ℕ × Voice S C => p.2.last_note_off_sample_index)
            (voices.enum.filter
              (fun p => decide (p.2.get_adsr_stage = some ADSRStage.RELEASE))) with
        | none => exact absurd ((firstMinBy_eq_none_iff _ _).mp hfm) hflne
        | some m => exact ⟨m, rfl⟩
      obtain ⟨hmem, hmin, htie⟩ := firstMinBy_pairs_spec _ _ m
        ((enum_pairwise voices).filter _) hm
      obtain ⟨hmenum, hmst⟩ := List.mem_filter.mp hmem
      have hmstage : m.2.get_adsr_stage = some ADSRStage.RELEASE := by simpa using hmst
      refine ⟨m.1, m.2, ?_, enum_get? hmenum, ?_, ?_, ?_⟩
      · rw [hform, hm]
        rfl
      · intro hc
        exact absurd hc (by simp)
      · intro _ _
        refine ⟨hmstage, ?_, ?_⟩
        · intro w hw hstw
          obtain ⟨i, hi⟩ := mem_exists_enum hw
          exact hmin (i, w) (List.mem_filter.mpr ⟨hi, by simpa using hstw⟩)
        · intro k w hk hstw hkey
          exact htie (k, w) (List.mem_filter.mpr ⟨get?_enum hk, by simpa using hstw⟩) hkey
      · intro _ hno
        exfalso
        have hmv : m.2 ∈ voices := List.get?_mem (enum_get? hmenum)
        exact hno m.2 hmv hmstage

/-- Witness for C1 on a concrete two-voice pool (all running, no envelope;
both carry the default `last_note_on_sample_index = 0`, so the tie resolves
to pool index 0). -/
theorem steal_policy_witness :
    [runningVoice, runningVoice].length ≠ 0
    ∧ (∀ v ∈ [runningVoice, runningVoice], v.running = true)
    ∧ ∃ j v, getOrStealVoiceIdx false [runningVoice, runningVoice] = some j
        ∧ [runningVoice, runningVoice].get? j = some v := by
  refine ⟨by decide, ?_, ?_⟩
  · intro v hv
    rcases List.mem_cons.mp hv with h | h
    · rw [h]; rfl
    · rw [List.mem_singleton.mp h]; rfl
  · obtain ⟨j, v, h1, h2, _, _, _⟩ := steal_policy false [runningVoice, runningVoice]
      (by decide)
      (by
        intro v hv
        rcases List.mem_cons.mp hv with h | h
        · rw [h]; rfl
        · rw [List.mem_singleton.mp h]; rfl)
    exact ⟨j, v, h1, h2⟩

end FreePitch
